import Mathlib

/-!
Verification of the `shelf` content-addressable data build system.

The definitions below are a shallow embedding of the Python sources under
`src/shelf/`.  Strings are modelled as lists of characters (`Str`), file
systems as finite association lists from paths to content checksums, and
fallible code returns `Except`/`Option`.  Where a definition is modelled
from the specification because the corresponding file is absent from the
source tree (the JSON schema files, the `TABLE_DIR`/`TABLE_SCRIPT_DIR`
constants), its doc comment says so explicitly.
-/

/-- Strings are modelled as lists of characters, so that every operation is
a structural recursion the kernel can evaluate. -/
abbrev Str := List Char

deriving instance DecidableEq for Except

/-- Lexicographic strict order on strings by Unicode code point, matching
the comparison Python uses when ordering `str` values. -/
def strLt : Str → Str → Bool
  | [], [] => false
  | [], _ :: _ => true
  | _ :: _, [] => false
  | a :: as, b :: bs =>
    if a.toNat < b.toNat then true
    else if b.toNat < a.toNat then false
    else strLt as bs

/-- Non-strict lexicographic order on strings. -/
def strLe (a b : Str) : Bool := strLt a b || a == b

/-- Python `str.split` at every slash, keeping empty parts. -/
def splitSlash : Str → List Str
  | [] => [[]]
  | c :: rest =>
    if c = '/' then [] :: splitSlash rest
    else
      match splitSlash rest with
      | p :: ps => (c :: p) :: ps
      | [] => [[c]]

/-- Final element of a list of parts (Python negative indexing). -/
def lastPart (ps : List Str) : Str := ps.getLastD []

/-- Python slash-join of a list of parts. -/
def joinSlash : List Str → Str
  | [] => []
  | [p] => p
  | p :: q :: ps => p ++ '/' :: joinSlash (q :: ps)

theorem splitSlash_ne_nil (s : Str) : splitSlash s ≠ [] := by
  cases s with
  | nil => simp [splitSlash]
  | cons c rest =>
    simp only [splitSlash]
    split
    · simp
    · cases h : splitSlash rest <;> simp

/-- Splitting on slashes and joining back is the identity. -/
theorem joinSlash_splitSlash (s : Str) : joinSlash (splitSlash s) = s := by
  induction s with
  | nil => rfl
  | cons c rest ih =>
    simp only [splitSlash]
    split
    · rename_i hc
      subst hc
      cases h : splitSlash rest with
      | nil => exact absurd h (splitSlash_ne_nil rest)
      | cons p ps =>
        rw [h] at ih
        simp [joinSlash, ih]
    · cases h : splitSlash rest with
      | nil => exact absurd h (splitSlash_ne_nil rest)
      | cons p ps =>
        rw [h] at ih
        cases ps with
        | nil => simpa [joinSlash] using congrArg (c :: ·) ih
        | cons q qs => simpa [joinSlash] using congrArg (c :: ·) ih

/-- Joining after appending one extra part appends a slash and the part. -/
theorem joinSlash_append_singleton (ps : List Str) (t : Str) (h : ps ≠ []) :
    joinSlash (ps ++ [t]) = joinSlash ps ++ '/' :: t := by
  induction ps with
  | nil => exact absurd rfl h
  | cons p ps ih =>
    cases ps with
    | nil => simp [joinSlash]
    | cons q qs =>
      have := ih (by simp)
      simp only [List.cons_append, joinSlash] at this ⊢
      simp [this]

/-- The scheme of a step URI; parsing rejects any other scheme. -/
inductive Scheme where
  | snapshot
  | table
deriving DecidableEq, Repr

/-- Textual form of a scheme. -/
def Scheme.str : Scheme → Str
  | .snapshot => ("snapshot".data)
  | .table => ("table".data)

/-- `StepURI` from `src/shelf/types.py`: a scheme plus a slash-separated
path.  Equality, ordering and hashing in the source all derive from the
textual form; with a fixed scheme type this coincides with structural
equality. -/
structure StepURI where
  scheme : Scheme
  path : Str
deriving DecidableEq, Repr

/-- The canonical textual form of a URI (`StepURI.uri`, also its Python
string conversion). -/
def StepURI.str (u : StepURI) : Str := u.scheme.str ++ ("://".data) ++ u.path

/-- The Python less-than on URIs: order by the textual form. -/
def StepURI.lt (a b : StepURI) : Bool := strLt a.str b.str

instance : BEq StepURI := ⟨fun a b => decide (a = b)⟩

instance : LawfulBEq StepURI where
  eq_of_beq h := by simpa [BEq.beq] using h
  rfl := by simp [BEq.beq]

/-- Split a string at every occurrence of the separator `://`, the way the
Python split call inside `StepURI.parse` does. -/
def splitSchemeSep : Str → List Str
  | [] => [[]]
  | ':' :: '/' :: '/' :: rest => [] :: splitSchemeSep rest
  | c :: rest =>
    match splitSchemeSep rest with
    | p :: ps => (c :: p) :: ps
    | [] => [[c]]

/-- `StepURI.parse` from `src/shelf/types.py`: split on the separator,
require exactly two parts (Python unpacking raises otherwise), and reject
unknown schemes. -/
def StepURI.parse (s : Str) : Option StepURI :=
  match splitSchemeSep s with
  | [scheme, path] =>
    if scheme == ("snapshot".data) then some ⟨Scheme.snapshot, path⟩
    else if scheme == ("table".data) then some ⟨Scheme.table, path⟩
    else none
  | _ => none

/-! ## Dataset name processing -/

/-- `Shelf._is_valid_version` from `src/shelf/__init__.py`.  Python
`re.match` anchors at the start only, so the date pattern accepts any
string that merely starts with a date shape; the literal `latest` is also
accepted. -/
def isValidVersion (v : Str) : Bool :=
  (match v with
   | a :: b :: c :: d :: '-' :: e :: f :: '-' :: g :: h :: _ =>
     a.isDigit && b.isDigit && c.isDigit && d.isDigit &&
     e.isDigit && f.isDigit && g.isDigit && h.isDigit
   | _ => false)
  || v == ("latest".data)

/-- `Shelf._process_dataset_name` from `src/shelf/__init__.py`.  The call
producing the current local date is passed in as the `today` parameter.
If the final segment is already a valid version the name is returned
unchanged, except that a single-segment name consisting only of a version
is an error; otherwise the date is appended as a new final segment. -/
def processDatasetName (today : Str) (datasetName : Str) : Except Str Str :=
  let parts := splitSlash datasetName
  if isValidVersion (lastPart parts) then
    if parts.length == 1 then
      Except.error ("a dataset must have a name as well as a version".data)
    else
      Except.ok datasetName
  else
    Except.ok (joinSlash (parts ++ [today]))

/-- C8 counterexample: the claim says a dataset name of exactly one
segment that is not a version token fails, but the source appends the
current date instead and succeeds.  Evaluated on the one-segment
non-version name `mydata`. -/
theorem claim_C8_counterexample :
    (splitSlash ("mydata".data)).length = 1 ∧
    isValidVersion (lastPart (splitSlash ("mydata".data))) = false ∧
    processDatasetName ("2025-10-12".data) ("mydata".data) =
      Except.ok ("mydata/2025-10-12".data) := by
  refine ⟨by decide, by decide, by decide⟩

/-- C8 (amended): name processing fails exactly on a one-segment name that
IS a version token (a version without a name); any name, single- or
multi-segment, whose final segment is not a version token gets the current
date appended as a new final segment; a multi-segment name ending in a
version token is returned unchanged. -/
theorem claim_C8_amended (today name : Str) :
    (isValidVersion (lastPart (splitSlash name)) = true →
      ((splitSlash name).length = 1 →
        processDatasetName today name =
          Except.error ("a dataset must have a name as well as a version".data)) ∧
      ((splitSlash name).length ≠ 1 →
        processDatasetName today name = Except.ok name)) ∧
    (isValidVersion (lastPart (splitSlash name)) = false →
      processDatasetName today name = Except.ok (name ++ '/' :: today)) := by
  constructor
  · intro hv
    constructor
    · intro hlen
      simp [processDatasetName, hv, hlen]
    · intro hlen
      simp [processDatasetName, hv, hlen]
  · intro hv
    have hne := splitSlash_ne_nil name
    simp only [processDatasetName, hv, Bool.false_eq_true, if_false]
    rw [joinSlash_append_singleton _ _ hne, joinSlash_splitSlash]

/-- Witness for C8: instantiate the amended theorem on concrete names,
exercising both the error branch and the date-appending branch. -/
theorem claim_C8_amended_witness :
    processDatasetName ("2025-10-12".data) ("2024-07-26".data) =
      Except.error ("a dataset must have a name as well as a version".data) ∧
    processDatasetName ("2025-10-12".data) ("t/one".data) =
      Except.ok (("t/one".data) ++ '/' :: ("2025-10-12".data)) :=
  ⟨((claim_C8_amended ("2025-10-12".data) ("2024-07-26".data)).1 (by decide)).1 (by decide),
   (claim_C8_amended ("2025-10-12".data) ("t/one".data)).2 (by decide)⟩

/-! ## Sorting (Python sorted, as a stable insertion sort) -/

/-- Insert an element into a list before the first element it compares
less-or-equal to. -/
def insertLe (le : α → α → Bool) (x : α) : List α → List α
  | [] => [x]
  | y :: ys => if le x y then x :: y :: ys else y :: insertLe le x ys

/-- Stable insertion sort with a boolean comparison, modelling Python
`sorted`. -/
def sortBy (le : α → α → Bool) : List α → List α
  | [] => []
  | x :: xs => insertLe le x (sortBy le xs)

theorem map_insertLe (f : α → β) (le : α → α → Bool) (le' : β → β → Bool)
    (h : ∀ a b, le' (f a) (f b) = le a b) (x : α) (l : List α) :
    (insertLe le x l).map f = insertLe le' (f x) (l.map f) := by
  induction l with
  | nil => rfl
  | cons y ys ih =>
    simp only [insertLe, List.map_cons, ← h]
    by_cases hc : le' (f x) (f y) = true
    · simp [hc]
    · simp only [Bool.not_eq_true] at hc
      simp [hc, ih]

/-- Mapping commutes with sorting when the comparison is preserved by the
map. -/
theorem map_sortBy (f : α → β) (le : α → α → Bool) (le' : β → β → Bool)
    (h : ∀ a b, le' (f a) (f b) = le a b) (l : List α) :
    (sortBy le l).map f = sortBy le' (l.map f) := by
  induction l with
  | nil => rfl
  | cons x xs ih => simp only [sortBy, List.map_cons, ← ih, map_insertLe f le le' h]

/-! ## Registry (shelf.yaml): `src/shelf/core.py` -/

/-- A registry file (`shelf.yaml`), abstracted to its structured YAML
content: a version, an optional `data_dir` entry, and the `steps` mapping
from URI strings to lists of dependency URI strings, in document order. -/
structure RegistryFile where
  version : Nat
  data_dir : Option Str
  steps : List (Str × List Str)
deriving DecidableEq, Repr

/-- Modelled from the spec: the shelf JSON schema file
`src/shelf/schemas/shelf-v1.schema.json` is absent from the source tree.
Per the spec it enumerates `version`, `data_dir` and `steps`; since the
source saves registries without a `data_dir` key and reloads them, the
schema cannot require `data_dir`, and in this structured model the
remaining fields always exist with the right types, so validation always
succeeds. -/
def shelfSchemaValid (_x : RegistryFile) : Bool := true

/-- The in-memory `Shelf` class from `src/shelf/core.py` (named
`ShelfCore` here because Mathlib already uses the name `Shelf`): the
parsed version and the steps DAG in insertion order (Python dict preserves
it). -/
structure ShelfCore where
  version : Nat
  steps : List (StepURI × List StepURI)
deriving DecidableEq, Repr

/-- Parse every dependency string of one steps entry
(the inner comprehension of `Shelf.refresh`). -/
def parseDeps : List Str → Option (List StepURI)
  | [] => some []
  | d :: ds => do
    let u ← StepURI.parse d
    let us ← parseDeps ds
    pure (u :: us)

/-- Parse the whole steps mapping (the comprehension of `Shelf.refresh`). -/
def parseSteps : List (Str × List Str) → Option (List (StepURI × List StepURI))
  | [] => some []
  | (k, ds) :: rest => do
    let u ← StepURI.parse k
    let us ← parseDeps ds
    let prest ← parseSteps rest
    pure ((u, us) :: prest)

/-- `Shelf.refresh` from the source (the loading path of `Shelf.__init__`): validate the
configuration against the shelf schema, then parse every key and
dependency into a `StepURI`.  Parse failures propagate as `none`. -/
def ShelfCore.refresh (x : RegistryFile) : Option ShelfCore :=
  if shelfSchemaValid x then
    (parseSteps x.steps).map (fun st => (⟨x.version, st⟩ : ShelfCore))
  else
    none

/-- Comparison used by `sorted(self.steps.items())`: Python compares the
`(key, value)` tuples, which starts with the `StepURI` keys; dict keys are
distinct so the tie-breaking comparison of the value lists is never
consulted. -/
def stepItemLe (a b : StepURI × List StepURI) : Bool := strLe a.1.str b.1.str

/-- The registry file written by `Shelf.save`: the version and the steps
mapping with items sorted by URI textual form and rendered back to
strings.  The config dict built by the source contains no `data_dir` key. -/
def ShelfCore.savedFile (sh : ShelfCore) : RegistryFile :=
  { version := sh.version
    data_dir := none
    steps := (sortBy stepItemLe sh.steps).map
      (fun kv => (kv.1.str, kv.2.map StepURI.str)) }

/-- `Shelf.save` from `src/shelf/core.py`: build the config mapping,
validate it against the shelf schema, and write it out.  The written file
is returned; a schema violation would surface as `none`. -/
def ShelfCore.save (sh : ShelfCore) : Option RegistryFile :=
  let config := sh.savedFile
  if shelfSchemaValid config then some config else none

/-- `Shelf.new_table` from `src/shelf/core.py`.  The result carries the
updated in-memory shelf together with the file written by the final
`self.save()`; an error leaves the caller with the unchanged original
(the duplicate check precedes every mutation). -/
def ShelfCore.newTable (sh : ShelfCore) (tablePath : Str) (dependencies : List Str) :
    Except Str (ShelfCore × RegistryFile) :=
  let tableUri : StepURI := ⟨Scheme.table, tablePath⟩
  if sh.steps.any (fun kv => kv.1 == tableUri) then
    Except.error ("Table already exists in shelf".data)
  else
    match parseDeps dependencies with
    | none => Except.error ("Unknown scheme".data)
    | some pds =>
      let sh2 : ShelfCore := ⟨sh.version, sh.steps ++ [(tableUri, pds)]⟩
      match sh2.save with
      | some file => Except.ok (sh2, file)
      | none => Except.error ("schema violation".data)

/-- C10: `new_table` rejects a duplicate table URI with an error — the
check precedes every mutation and the save, so in this pure embedding no
updated state or file exists in the error case — and otherwise appends the
mapping from the new table URI to the parsed dependency URIs and saves the
registry. -/
theorem claim_C10_new_table (sh : ShelfCore) (tablePath : Str) (deps : List Str) :
    (sh.steps.any (fun kv => kv.1 == (⟨Scheme.table, tablePath⟩ : StepURI)) = true →
      sh.newTable tablePath deps =
        Except.error ("Table already exists in shelf".data)) ∧
    (sh.steps.any (fun kv => kv.1 == (⟨Scheme.table, tablePath⟩ : StepURI)) = false →
      ∀ pds, parseDeps deps = some pds →
        sh.newTable tablePath deps =
          Except.ok
            (⟨sh.version, sh.steps ++ [(⟨Scheme.table, tablePath⟩, pds)]⟩,
             ShelfCore.savedFile
               ⟨sh.version, sh.steps ++ [(⟨Scheme.table, tablePath⟩, pds)]⟩)) := by
  constructor
  · intro hdup
    simp [ShelfCore.newTable, hdup]
  · intro hdup pds hpds
    simp [ShelfCore.newTable, hdup, hpds, ShelfCore.save, shelfSchemaValid]

/-- Witness for C10 at a concrete registry: the duplicate branch errors
and the fresh branch extends the DAG and saves. -/
theorem claim_C10_new_table_witness :
    (ShelfCore.newTable ⟨1, [(⟨Scheme.table, ("t/one/latest".data)⟩, [])]⟩
        ("t/one/latest".data) [] =
      Except.error ("Table already exists in shelf".data)) ∧
    (ShelfCore.newTable ⟨1, [(⟨Scheme.table, ("t/one/latest".data)⟩, [])]⟩
        ("t/two/latest".data) [("snapshot://a/2024-01-01".data)] =
      Except.ok
        (⟨1, [(⟨Scheme.table, ("t/one/latest".data)⟩, []),
              (⟨Scheme.table, ("t/two/latest".data)⟩,
               [⟨Scheme.snapshot, ("a/2024-01-01".data)⟩])]⟩,
         ShelfCore.savedFile
           ⟨1, [(⟨Scheme.table, ("t/one/latest".data)⟩, []),
                (⟨Scheme.table, ("t/two/latest".data)⟩,
                 [⟨Scheme.snapshot, ("a/2024-01-01".data)⟩])]⟩)) :=
  ⟨(claim_C10_new_table ⟨1, [(⟨Scheme.table, ("t/one/latest".data)⟩, [])]⟩
      ("t/one/latest".data) []).1 (by decide),
   (claim_C10_new_table ⟨1, [(⟨Scheme.table, ("t/one/latest".data)⟩, [])]⟩
      ("t/two/latest".data) [("snapshot://a/2024-01-01".data)]).2 (by decide)
      [⟨Scheme.snapshot, ("a/2024-01-01".data)⟩] (by decide)⟩

/-! ## Registry round-trip (claim C5) -/

/-- A URI string is well formed when it parses and printing the parse
yields it back (the canonical textual form). -/
def keyWellFormed (k : Str) : Bool :=
  match StepURI.parse k with
  | some u => u.str == k
  | none => false

/-- The keys of the steps mapping are pairwise distinct, as they are for a
YAML mapping loaded into a Python dict. -/
def distinctKeys : List (Str × List Str) → Bool
  | [] => true
  | (k, _) :: rest => !(rest.any (fun kv => kv.1 == k)) && distinctKeys rest

/-- A well-formed registry file: distinct step keys, and every key and
dependency string in canonical URI form. -/
def wellFormedFile (x : RegistryFile) : Bool :=
  distinctKeys x.steps &&
  x.steps.all (fun kv => keyWellFormed kv.1 && kv.2.all keyWellFormed)

/-- Modelled from the spec words for claim C5: canonicalization of a
registry file keeps every entry and sorts the steps mapping by the URI
textual form of its keys. -/
def canonicalFile (x : RegistryFile) : RegistryFile :=
  ⟨x.version, x.data_dir, sortBy (fun a b => strLe a.1 b.1) x.steps⟩

/-- The registry file written by `Shelf.init`. -/
def initFile : RegistryFile := ⟨1, some ("data".data), []⟩

theorem parseDeps_of_wellFormed (ds : List Str)
    (h : ds.all keyWellFormed = true) :
    ∃ us, parseDeps ds = some us ∧ us.map StepURI.str = ds := by
  induction ds with
  | nil => exact ⟨[], rfl, rfl⟩
  | cons d ds ih =>
    simp only [List.all_cons, Bool.and_eq_true] at h
    obtain ⟨hd, hds⟩ := h
    obtain ⟨us, hus, hmap⟩ := ih hds
    unfold keyWellFormed at hd
    cases hp : StepURI.parse d with
    | none => rw [hp] at hd; exact absurd hd (by simp)
    | some u =>
      rw [hp] at hd
      have hstr : u.str = d := by simpa using hd
      refine ⟨u :: us, ?_, ?_⟩
      · simp [parseDeps, hp, hus]
      · simp [hmap, hstr]

theorem parseSteps_of_wellFormed (st : List (Str × List Str))
    (h : st.all (fun kv => keyWellFormed kv.1 && kv.2.all keyWellFormed) = true) :
    ∃ ps, parseSteps st = some ps ∧
      ps.map (fun kv => (kv.1.str, kv.2.map StepURI.str)) = st := by
  induction st with
  | nil => exact ⟨[], rfl, rfl⟩
  | cons kv rest ih =>
    obtain ⟨k, ds⟩ := kv
    simp only [List.all_cons, Bool.and_eq_true] at h
    obtain ⟨⟨hk, hds⟩, hrest⟩ := h
    obtain ⟨ps, hps, hpmap⟩ := ih hrest
    obtain ⟨us, hus, humap⟩ := parseDeps_of_wellFormed ds hds
    unfold keyWellFormed at hk
    cases hp : StepURI.parse k with
    | none => rw [hp] at hk; exact absurd hk (by simp)
    | some u =>
      rw [hp] at hk
      have hstr : u.str = k := by simpa using hk
      refine ⟨(u, us) :: ps, ?_, ?_⟩
      · simp [parseSteps, hp, hus, hps]
      · simp [hpmap, humap, hstr]

/-- C5 counterexample: the round trip is not the identity even on the file
that `Shelf.init` itself writes, because `Shelf.save` drops the `data_dir`
entry. -/
theorem claim_C5_counterexample :
    wellFormedFile initFile = true ∧
    (ShelfCore.refresh initFile).bind ShelfCore.save =
      some ⟨1, none, []⟩ ∧
    canonicalFile initFile = initFile ∧
    ((⟨1, none, []⟩ : RegistryFile) ≠ initFile) := by
  refine ⟨by decide, by decide, by decide, by decide⟩

/-- C5 (amended): loading a well-formed registry file and saving it again
reproduces its version and its steps mapping with keys sorted by URI
textual form, but drops the `data_dir` entry; the round trip is the
canonicalization only of the version and steps fields. -/
theorem claim_C5_amended (x : RegistryFile) (h : wellFormedFile x = true) :
    (ShelfCore.refresh x).bind ShelfCore.save =
      some ⟨x.version, none, sortBy (fun a b => strLe a.1 b.1) x.steps⟩ := by
  unfold wellFormedFile at h
  simp only [Bool.and_eq_true] at h
  obtain ⟨us, hus, humap⟩ := parseSteps_of_wellFormed x.steps h.2
  have hrefresh : ShelfCore.refresh x = some ⟨x.version, us⟩ := by
    simp [ShelfCore.refresh, shelfSchemaValid, hus]
  rw [hrefresh]
  have hsort :
      (sortBy stepItemLe us).map (fun kv => (kv.1.str, kv.2.map StepURI.str)) =
        sortBy (fun a b => strLe a.1 b.1) x.steps := by
    rw [map_sortBy (fun kv => (kv.1.str, kv.2.map StepURI.str)) stepItemLe
      (fun a b => strLe a.1 b.1) (fun a b => by simp [stepItemLe]) us]
    rw [humap]
  simp [Option.bind, ShelfCore.save, shelfSchemaValid, ShelfCore.savedFile, hsort]

/-- Witness for C5: the amended round trip evaluated on a concrete
two-entry registry whose keys arrive unsorted. -/
theorem claim_C5_amended_witness :
    (ShelfCore.refresh
        ⟨1, some ("data".data),
         [(("table://b/latest".data), [("snapshot://a/2024-01-01".data)]),
          (("snapshot://a/2024-01-01".data), [])]⟩).bind ShelfCore.save =
      some ⟨1, none,
        [(("snapshot://a/2024-01-01".data), []),
         (("table://b/latest".data), [("snapshot://a/2024-01-01".data)])]⟩ :=
  (claim_C5_amended
      ⟨1, some ("data".data),
       [(("table://b/latest".data), [("snapshot://a/2024-01-01".data)]),
        (("snapshot://a/2024-01-01".data), [])]⟩ (by decide)).trans (by decide)

/-! ## String order lemmas -/

theorem strLt_irrefl (a : Str) : strLt a a = false := by
  induction a with
  | nil => rfl
  | cons c cs ih => simp [strLt, ih]

theorem strLt_asymm {a b : Str} (hab : strLt a b = true) (hba : strLt b a = true) :
    False := by
  induction a generalizing b with
  | nil => cases b <;> simp [strLt] at hab hba
  | cons c cs ih =>
    cases b with
    | nil => simp [strLt] at hab
    | cons d ds =>
      simp only [strLt] at hab hba
      rcases Nat.lt_trichotomy c.toNat d.toNat with h | h | h
      · rw [if_pos h] at hab
        rw [if_neg (Nat.lt_asymm h), if_pos h] at hba
        exact absurd hba (by simp)
      · rw [if_neg (by omega), if_neg (by omega)] at hab hba
        exact ih hab hba
      · rw [if_neg (Nat.lt_asymm h), if_pos h] at hab
        exact absurd hab (by simp)

theorem strLt_trans {a b c : Str} (hab : strLt a b = true) (hbc : strLt b c = true) :
    strLt a c = true := by
  induction a generalizing b c with
  | nil =>
    cases c with
    | nil => cases b <;> simp [strLt] at hbc
    | cons e es => simp [strLt]
  | cons x xs ih =>
    cases b with
    | nil => simp [strLt] at hab
    | cons y ys =>
      cases c with
      | nil => simp [strLt] at hbc
      | cons z zs =>
        simp only [strLt] at hab hbc ⊢
        by_cases h₁ : x.toNat < y.toNat
        · by_cases h₂ : y.toNat < z.toNat
          · rw [if_pos (Nat.lt_trans h₁ h₂)]
          · by_cases h₃ : z.toNat < y.toNat
            · rw [if_neg h₂, if_pos h₃] at hbc
              exact absurd hbc (by simp)
            · have hyz : y.toNat = z.toNat := by omega
              rw [if_pos (hyz ▸ h₁)]
        · by_cases h₄ : y.toNat < x.toNat
          · rw [if_neg h₁, if_pos h₄] at hab
            exact absurd hab (by simp)
          · have hxy : x.toNat = y.toNat := by omega
            rw [if_neg h₁, if_neg h₄] at hab
            by_cases h₂ : y.toNat < z.toNat
            · rw [if_pos (hxy ▸ h₂)]
            · by_cases h₃ : z.toNat < y.toNat
              · rw [if_neg h₂, if_pos h₃] at hbc
                exact absurd hbc (by simp)
              · have hyz : y.toNat = z.toNat := by omega
                rw [if_neg h₂, if_neg h₃] at hbc
                rw [if_neg (by omega), if_neg (by omega)]
                exact ih hab hbc

theorem char_eq_of_toNat_eq {c d : Char} (h : c.toNat = d.toNat) : c = d := by
  cases c with
  | mk cv hcv =>
    cases d with
    | mk dv hdv =>
      congr 1
      simp only [Char.toNat] at h
      exact UInt32.toNat.inj h

theorem strLt_total (a b : Str) : strLt a b = true ∨ a = b ∨ strLt b a = true := by
  induction a generalizing b with
  | nil => cases b <;> simp [strLt]
  | cons c cs ih =>
    cases b with
    | nil => simp [strLt]
    | cons d ds =>
      rcases Nat.lt_trichotomy c.toNat d.toNat with h | h | h
      · exact Or.inl (by simp [strLt, h])
      · have hcd : c = d := char_eq_of_toNat_eq h
        subst hcd
        rcases ih ds with h₂ | h₂ | h₂
        · exact Or.inl (by simp [strLt, h₂])
        · exact Or.inr (Or.inl (by rw [h₂]))
        · exact Or.inr (Or.inr (by simp [strLt, h₂]))
      · exact Or.inr (Or.inr (by simp [strLt, h, Nat.lt_asymm h]))

/-! ## Sort correctness -/

theorem insertLe_perm (le : α → α → Bool) (x : α) (l : List α) :
    List.Perm (insertLe le x l) (x :: l) := by
  induction l with
  | nil => exact List.Perm.refl _
  | cons y ys ih =>
    simp only [insertLe]
    by_cases h : le x y = true
    · simp [h]
    · simp only [Bool.not_eq_true] at h
      simp only [h, Bool.false_eq_true, if_false]
      exact (ih.cons y).trans (List.Perm.swap x y ys)

theorem sortBy_perm (le : α → α → Bool) (l : List α) : List.Perm (sortBy le l) l := by
  induction l with
  | nil => exact List.Perm.refl _
  | cons x xs ih => exact (insertLe_perm le x (sortBy le xs)).trans (ih.cons x)

theorem pairwise_insertLe (le : α → α → Bool)
    (htot : ∀ a b, le a b = true ∨ le b a = true)
    (htrans : ∀ a b c, le a b = true → le b c = true → le a c = true)
    (x : α) (l : List α) (h : l.Pairwise (fun a b => le a b = true)) :
    (insertLe le x l).Pairwise (fun a b => le a b = true) := by
  induction l with
  | nil => simp [insertLe]
  | cons y ys ih =>
    simp only [insertLe]
    rcases List.pairwise_cons.mp h with ⟨hy, hys⟩
    by_cases hc : le x y = true
    · simp only [hc, if_true]
      refine List.pairwise_cons.mpr ⟨?_, h⟩
      intro z hz
      rcases List.mem_cons.mp hz with hz | hz
      · rw [hz]
        exact hc
      · exact htrans x y z hc (hy z hz)
    · simp only [hc, Bool.false_eq_true, if_false]
      refine List.pairwise_cons.mpr ⟨?_, ih hys⟩
      intro z hz
      have hz2 := (insertLe_perm le x ys).mem_iff.mp hz
      rcases List.mem_cons.mp hz2 with hz3 | hz3
      · rw [hz3]
        rcases htot x y with hh | hh
        · exact absurd hh hc
        · exact hh
      · exact hy z hz3

theorem pairwise_sortBy (le : α → α → Bool)
    (htot : ∀ a b, le a b = true ∨ le b a = true)
    (htrans : ∀ a b c, le a b = true → le b c = true → le a c = true)
    (l : List α) : (sortBy le l).Pairwise (fun a b => le a b = true) := by
  induction l with
  | nil => simp [sortBy]
  | cons x xs ih => exact pairwise_insertLe le htot htrans x (sortBy le xs) ih

/-- Two lists that are permutations of each other and both sorted under a
strict (asymmetric) relation are equal. -/
theorem eq_of_perm_of_pairwise_strict {r : α → α → Prop}
    (hasym : ∀ a b, r a b → r b a → False)
    {l₁ l₂ : List α} (hperm : List.Perm l₁ l₂)
    (h₁ : l₁.Pairwise r) (h₂ : l₂.Pairwise r) : l₁ = l₂ := by
  haveI : IsAntisymm α r := ⟨fun a b hab hba => absurd hba (fun h => hasym a b hab h)⟩
  exact List.eq_of_perm_of_sorted hperm h₁ h₂

/-! ## SHA-256 (hashlib), over bytes as naturals below 256 -/

/-- Right rotation of a 32-bit word. -/
def rotr (n x : Nat) : Nat :=
  ((x >>> n) ||| (x <<< (32 - n))) % 4294967296

/-- The SHA-256 round constants. -/
def shaK : List Nat :=
  [1116352408, 1899447441, 3049323471, 3921009573,
   961987163, 1508970993, 2453635748, 2870763221,
   3624381080, 310598401, 607225278, 1426881987,
   1925078388, 2162078206, 2614888103, 3248222580,
   3835390401, 4022224774, 264347078, 604807628,
   770255983, 1249150122, 1555081692, 1996064986,
   2554220882, 2821834349, 2952996808, 3210313671,
   3336571891, 3584528711, 113926993, 338241895,
   666307205, 773529912, 1294757372, 1396182291,
   1695183700, 1986661051, 2177026350, 2456956037,
   2730485921, 2820302411, 3259730800, 3345764771,
   3516065817, 3600352804, 4094571909, 275423344,
   430227734, 506948616, 659060556, 883997877,
   958139571, 1322822218, 1537002063, 1747873779,
   1955562222, 2024104815, 2227730452, 2361852424,
   2428436474, 2756734187, 3204031479, 3329325298]

/-- The SHA-256 initial state. -/
def shaH0 : List Nat :=
  [1779033703, 3144134277, 1013904242, 2773480762,
   1359893119, 2600822924, 528734635, 1541459225]

/-- Append the 0x80 byte, zero padding and the 64-bit big-endian bit
length. -/
def padMessage (msg : List Nat) : List Nat :=
  let len := msg.length
  let bitLen := len * 8
  let padZeros := (119 - len % 64) % 64
  msg ++ [128] ++ List.replicate padZeros 0 ++
    [(bitLen >>> 56) % 256, (bitLen >>> 48) % 256, (bitLen >>> 40) % 256,
     (bitLen >>> 32) % 256, (bitLen >>> 24) % 256, (bitLen >>> 16) % 256,
     (bitLen >>> 8) % 256, bitLen % 256]

/-- Big-endian packing of bytes into 32-bit words. -/
def toWords : List Nat → List Nat
  | a :: b :: c :: d :: rest =>
    (a * 16777216 + b * 65536 + c * 256 + d) :: toWords rest
  | _ => []

/-- Message-schedule extension: append the given number of derived
words. -/
def extendWords : Nat → List Nat → List Nat
  | 0, w => w
  | n + 1, w =>
    let i := w.length
    let w15 := w.getD (i - 15) 0
    let w2 := w.getD (i - 2) 0
    let s0 := (rotr 7 w15) ^^^ (rotr 18 w15) ^^^ (w15 >>> 3)
    let s1 := (rotr 17 w2) ^^^ (rotr 19 w2) ^^^ (w2 >>> 10)
    let nw := (w.getD (i - 16) 0 + s0 + w.getD (i - 7) 0 + s1) % 4294967296
    extendWords n (w ++ [nw])

/-- One compression round on the eight-word working state. -/
def shaRound (st : List Nat) (kw : Nat × Nat) : List Nat :=
  match st with
  | [a, b, c, d, e, f, g, h] =>
    let s1 := (rotr 6 e) ^^^ (rotr 11 e) ^^^ (rotr 25 e)
    let ch := (e &&& f) ^^^ ((4294967295 - e) &&& g)
    let t1 := (h + s1 + ch + kw.1 + kw.2) % 4294967296
    let s0 := (rotr 2 a) ^^^ (rotr 13 a) ^^^ (rotr 22 a)
    let mj := (a &&& b) ^^^ (a &&& c) ^^^ (b &&& c)
    let t2 := (s0 + mj) % 4294967296
    [(t1 + t2) % 4294967296, a, b, c, (d + t1) % 4294967296, e, f, g]
  | _ => st

/-- Word-wise modular addition of two states. -/
def addState (st nst : List Nat) : List Nat :=
  (st.zip nst).map (fun p => (p.1 + p.2) % 4294967296)

/-- Process one 64-byte block. -/
def shaBlock (st : List Nat) (block : List Nat) : List Nat :=
  let w := extendWords 48 (toWords block)
  let nst := (shaK.zip w).foldl shaRound st
  addState st nst

/-- Chop a padded message into 64-byte blocks (the fuel is the message
length, which always suffices). -/
def chunk64 : Nat → List Nat → List (List Nat)
  | 0, _ => []
  | _, [] => []
  | n + 1, bs => bs.take 64 :: chunk64 n (bs.drop 64)

/-- SHA-256 of a byte list, as the final eight words. -/
def sha256words (msg : List Nat) : List Nat :=
  let padded := padMessage msg
  (chunk64 padded.length padded).foldl shaBlock shaH0

/-- A lowercase hex digit. -/
def hexChar (n : Nat) : Char :=
  if n < 10 then Char.ofNat (48 + n) else Char.ofNat (87 + n)

/-- Lowercase hex rendering of one 32-bit word. -/
def wordHex (w : Nat) : List Char :=
  [hexChar ((w >>> 28) % 16), hexChar ((w >>> 24) % 16), hexChar ((w >>> 20) % 16),
   hexChar ((w >>> 16) % 16), hexChar ((w >>> 12) % 16), hexChar ((w >>> 8) % 16),
   hexChar ((w >>> 4) % 16), hexChar (w % 16)]

/-- The 64-character lowercase hex digest (`hexdigest`). -/
def sha256hex (msg : List Nat) : Str :=
  (sha256words msg).flatMap wordHex

/-- Python `str.encode()`: UTF-8 bytes of a string. -/
def utf8Bytes (s : Str) : List Nat :=
  s.flatMap (fun c =>
    let n := c.toNat
    if n < 128 then [n]
    else if n < 2048 then [192 + n / 64, 128 + n % 64]
    else if n < 65536 then [224 + n / 4096, 128 + (n / 64) % 64, 128 + n % 64]
    else [240 + n / 262144, 128 + (n / 4096) % 64, 128 + (n / 64) % 64, 128 + n % 64])

/-- A hashlib streaming state: the bytes absorbed so far.  The digest of a
state is the SHA-256 of the concatenation of all updates, which is the
defining semantics of hashlib `update`. -/
abbrev ShaState := List Nat

/-- Fresh hashlib state. -/
def shaInit : ShaState := []

/-- hashlib `update`: absorb more bytes. -/
def shaUpdate (st : ShaState) (bs : List Nat) : ShaState := st ++ bs

/-- hashlib `hexdigest` on a streaming state. -/
def shaHexDigest (st : ShaState) : Str := sha256hex st

/-- Python tuple comparison on `(path, checksum)` pairs, as used by
`sorted(manifest.items())`. -/
def itemLe (a b : Str × Str) : Bool :=
  strLt a.1 b.1 || (a.1 == b.1 && strLe a.2 b.2)

/-- `checksum_manifest` from `src/shelf/utils.py`: update a fresh SHA-256
state with the path bytes and checksum bytes of every entry, in sorted
item order, and take the hex digest. -/
def checksum_manifest (manifest : List (Str × Str)) : Str :=
  shaHexDigest ((sortBy itemLe manifest).foldl
    (fun st kv => shaUpdate (shaUpdate st (utf8Bytes kv.1)) (utf8Bytes kv.2))
    shaInit)

theorem strLe_refl (a : Str) : strLe a a = true := by
  simp [strLe]

theorem strLe_total (a b : Str) : strLe a b = true ∨ strLe b a = true := by
  rcases strLt_total a b with h | h | h
  · exact Or.inl (by simp [strLe, h])
  · exact Or.inl (by simp [strLe, h])
  · exact Or.inr (by simp [strLe, h])

theorem strLe_trans {a b c : Str} (hab : strLe a b = true) (hbc : strLe b c = true) :
    strLe a c = true := by
  simp only [strLe, Bool.or_eq_true, beq_iff_eq] at hab hbc ⊢
  rcases hab with hab | hab <;> rcases hbc with hbc | hbc
  · exact Or.inl (strLt_trans hab hbc)
  · exact Or.inl (hbc ▸ hab)
  · exact Or.inl (hab ▸ hbc)
  · exact Or.inr (hab.trans hbc)

theorem itemLe_total (a b : Str × Str) : itemLe a b = true ∨ itemLe b a = true := by
  simp only [itemLe, Bool.or_eq_true, Bool.and_eq_true, beq_iff_eq]
  rcases strLt_total a.1 b.1 with h | h | h
  · exact Or.inl (Or.inl h)
  · rcases strLe_total a.2 b.2 with h₂ | h₂
    · exact Or.inl (Or.inr ⟨h, h₂⟩)
    · exact Or.inr (Or.inr ⟨h.symm, h₂⟩)
  · exact Or.inr (Or.inl h)

theorem itemLe_trans (a b c : Str × Str) (hab : itemLe a b = true)
    (hbc : itemLe b c = true) : itemLe a c = true := by
  simp only [itemLe, Bool.or_eq_true, Bool.and_eq_true, beq_iff_eq] at hab hbc ⊢
  rcases hab with hab | ⟨hab, hab₂⟩ <;> rcases hbc with hbc | ⟨hbc, hbc₂⟩
  · exact Or.inl (strLt_trans hab hbc)
  · exact Or.inl (hbc ▸ hab)
  · exact Or.inl (hab ▸ hbc)
  · exact Or.inr ⟨hab.trans hbc, strLe_trans hab₂ hbc₂⟩

theorem itemLe_key {a b : Str × Str} (h : itemLe a b = true) :
    strLe a.1 b.1 = true := by
  simp only [itemLe, Bool.or_eq_true, Bool.and_eq_true, beq_iff_eq] at h
  rcases h with h | ⟨h, _⟩
  · simp [strLe, h]
  · rw [h]
    exact strLe_refl b.1

/-- Two permutation-equivalent lists of manifest entries with the same
distinct paths that are both sorted by path are equal. -/
theorem sorted_by_key_unique {l₁ l₂ : List (Str × Str)}
    (hperm : List.Perm l₁ l₂) (hnd : (l₁.map Prod.fst).Nodup)
    (h₁ : l₁.Pairwise (fun a b => strLe a.1 b.1 = true))
    (h₂ : l₂.Pairwise (fun a b => strLe a.1 b.1 = true)) : l₁ = l₂ := by
  have hne₁ : l₁.Pairwise (fun a b => a.1 ≠ b.1) := by
    have := List.pairwise_map.mp hnd
    exact this
  have hnd₂ : (l₂.map Prod.fst).Nodup := ((hperm.map Prod.fst).nodup_iff).mp hnd
  have hne₂ : l₂.Pairwise (fun a b => a.1 ≠ b.1) := List.pairwise_map.mp hnd₂
  have hstrict : ∀ (a b : Str × Str),
      strLe a.1 b.1 = true ∧ a.1 ≠ b.1 → strLt a.1 b.1 = true := by
    intro a b ⟨hle, hne⟩
    simp only [strLe, Bool.or_eq_true, beq_iff_eq] at hle
    rcases hle with hle | hle
    · exact hle
    · exact absurd hle hne
  have hs₁ : l₁.Pairwise (fun a b => strLt a.1 b.1 = true) :=
    (h₁.and hne₁).imp (fun h => hstrict _ _ h)
  have hs₂ : l₂.Pairwise (fun a b => strLt a.1 b.1 = true) :=
    (h₂.and hne₂).imp (fun h => hstrict _ _ h)
  exact eq_of_perm_of_pairwise_strict
    (fun a b hab hba => strLt_asymm hab hba) hperm hs₁ hs₂

theorem foldl_shaUpdate (l : List (Str × Str)) (st : ShaState) :
    l.foldl (fun st kv => shaUpdate (shaUpdate st (utf8Bytes kv.1)) (utf8Bytes kv.2)) st
      = st ++ (l.map (fun kv => utf8Bytes kv.1 ++ utf8Bytes kv.2)).flatten := by
  induction l generalizing st with
  | nil => simp
  | cons kv rest ih =>
    rw [List.foldl_cons, ih]
    simp [shaUpdate, List.append_assoc]

/-- Comparison by path alone, the sorted order named by the spec. -/
def keyLe (a b : Str × Str) : Bool := strLe a.1 b.1

theorem keyLe_total (a b : Str × Str) : keyLe a b = true ∨ keyLe b a = true :=
  strLe_total a.1 b.1

theorem keyLe_trans (a b c : Str × Str) (hab : keyLe a b = true)
    (hbc : keyLe b c = true) : keyLe a c = true :=
  strLe_trans hab hbc

/-- The items of a manifest sorted by Python tuple order coincide with the
items sorted by path alone, whenever the paths are distinct (as they are
for a Python dict). -/
theorem sortBy_itemLe_eq_sortBy_key (m : List (Str × Str))
    (hnd : (m.map Prod.fst).Nodup) :
    sortBy itemLe m = sortBy keyLe m := by
  refine sorted_by_key_unique
    ((sortBy_perm itemLe m).trans (sortBy_perm keyLe m).symm)
    ?_ ?_ ?_
  · exact (((sortBy_perm itemLe m).map Prod.fst).nodup_iff).mpr hnd
  · exact (pairwise_sortBy itemLe itemLe_total itemLe_trans m).imp
      (fun h => itemLe_key h)
  · exact (pairwise_sortBy keyLe keyLe_total keyLe_trans m).imp (fun h => h)

/-- C6: the manifest roll-up checksum is the SHA-256 of the separator-free
concatenation, over entries sorted by path, of each path followed by its
checksum; consequently any two manifests equal as maps — permutations of
each other with distinct paths — roll up to the same checksum. -/
theorem claim_C6_checksum_manifest (m : List (Str × Str))
    (hnd : (m.map Prod.fst).Nodup) :
    checksum_manifest m =
      sha256hex (((sortBy keyLe m).map
        (fun kv => utf8Bytes kv.1 ++ utf8Bytes kv.2)).flatten) ∧
    ∀ m₂, List.Perm m m₂ → checksum_manifest m = checksum_manifest m₂ := by
  constructor
  · unfold checksum_manifest
    rw [sortBy_itemLe_eq_sortBy_key m hnd, foldl_shaUpdate]
    rfl
  · intro m₂ hperm
    unfold checksum_manifest
    have hsorteq : sortBy itemLe m = sortBy itemLe m₂ := by
      refine sorted_by_key_unique
        (((sortBy_perm itemLe m).trans hperm).trans (sortBy_perm itemLe m₂).symm)
        ?_ ?_ ?_
      · exact (((sortBy_perm itemLe m).map Prod.fst).nodup_iff).mpr hnd
      · exact (pairwise_sortBy itemLe itemLe_total itemLe_trans m).imp
          (fun h => itemLe_key h)
      · exact (pairwise_sortBy itemLe itemLe_total itemLe_trans m₂).imp
          (fun h => itemLe_key h)
    rw [hsorteq]

/-- Witness for C6 on a concrete two-entry manifest presented in two
insertion orders: the roll-up equals the SHA-256 of the sorted
concatenation and is insertion-order invariant. -/
theorem claim_C6_checksum_manifest_witness :
    checksum_manifest
        [(("file2.txt".data), ("40ef".data)), (("file1.txt".data), ("dffd".data))] =
      sha256hex (utf8Bytes ("file1.txt".data) ++ utf8Bytes ("dffd".data) ++
        (utf8Bytes ("file2.txt".data) ++ utf8Bytes ("40ef".data))) ∧
    checksum_manifest
        [(("file2.txt".data), ("40ef".data)), (("file1.txt".data), ("dffd".data))] =
      checksum_manifest
        [(("file1.txt".data), ("dffd".data)), (("file2.txt".data), ("40ef".data))] :=
  ⟨((claim_C6_checksum_manifest
      [(("file2.txt".data), ("40ef".data)), (("file1.txt".data), ("dffd".data))]
      (by decide)).1).trans (by decide),
   (claim_C6_checksum_manifest
      [(("file2.txt".data), ("40ef".data)), (("file1.txt".data), ("dffd".data))]
      (by decide)).2
      [(("file1.txt".data), ("dffd".data)), (("file2.txt".data), ("40ef".data))]
      (List.Perm.swap _ _ _)⟩

/-! ## Paths and the table freshness test (`src/shelf/tables.py`) -/

/-- Boolean test that the first list is an initial segment of the
second. -/
def leadsWith : Str → Str → Bool
  | [], _ => true
  | c :: cs, s =>
    match s with
    | d :: ds => c == d && leadsWith cs ds
    | [] => false

/-- Replace the suffix of one path segment, as Python `with_suffix` does:
strip from the last dot of the segment (unless that dot is its first
character, in which case there is no suffix) and append the new suffix. -/
def segWithSuffix (seg suffix : Str) : Str :=
  match seg.reverse.dropWhile (fun c => !(c == '.')) with
  | '.' :: rest =>
    if rest.isEmpty then seg ++ suffix
    else rest.reverse ++ suffix
  | _ => seg ++ suffix

/-- Python `Path.with_suffix` on a slash-separated path: it acts on the
final segment only. -/
def pathWithSuffix (p suffix : Str) : Str :=
  let parts := splitSlash p
  joinSlash (parts.dropLast ++ [segWithSuffix (lastPart parts) suffix])

/-- `SNAPSHOT_DIR` from `src/shelf/paths.py`. -/
def SNAPSHOT_DIR : Str := ("data/snapshots".data)

/-- Modelled from the spec: `TABLE_DIR` is imported by `src/shelf/tables.py`
but absent from `src/shelf/paths.py`; the spec fixes table outputs under
`data/tables`. -/
def TABLE_DIR : Str := ("data/tables".data)

/-- Modelled from the spec: `TABLE_SCRIPT_DIR` is imported by
`src/shelf/tables.py` but absent from `src/shelf/paths.py`; the spec puts
table scripts under `steps/tables`. -/
def TABLE_SCRIPT_DIR : Str := ("steps/tables".data)

/-- The parquet output file of a table step (`TABLE_DIR / f"{path}.parquet"`). -/
def tableDataFile (uri : StepURI) : Str :=
  TABLE_DIR ++ '/' :: uri.path ++ (".parquet".data)

/-- `_metadata_path` from `src/shelf/tables.py`: the sibling `.meta.yaml`
of the snapshot data path or of the table parquet output. -/
def metadata_path (uri : StepURI) : Str :=
  match uri.scheme with
  | Scheme.snapshot => pathWithSuffix (SNAPSHOT_DIR ++ '/' :: uri.path) (".meta.yaml".data)
  | Scheme.table => pathWithSuffix (tableDataFile uri) (".meta.yaml".data)

/-- The file-system state a table freshness check consults: which paths
exist with which content checksum, and the parsed `input_manifest` of each
metadata file. -/
structure TableFS where
  files : List (Str × Str)
  manifests : List (Str × List (Str × Str))
deriving DecidableEq, Repr

/-- Path existence. -/
def fsHasFile (fs : TableFS) (p : Str) : Bool := fs.files.any (fun kv => kv.1 == p)

/-- `checksum_file` on this state: the recorded content checksum of an
existing path (the source only calls it after an existence check). -/
def fsChecksum (fs : TableFS) (p : Str) : Str :=
  ((fs.files.find? (fun kv => kv.1 == p)).map Prod.snd).getD []

/-- The `input_manifest` parsed out of a metadata file by `load_yaml`. -/
def fsManifest (fs : TableFS) (p : Str) : List (Str × Str) :=
  ((fs.manifests.find? (fun kv => kv.1 == p)).map Prod.snd).getD []

/-- `is_completed` from `src/shelf/tables.py`: false when the parquet
output or the metadata file is missing; otherwise every declared
dependency must appear in the stored `input_manifest` by its metadata
path, and every manifest entry must still exist and rehash to its recorded
checksum. -/
def tables_is_completed (fs : TableFS) (uri : StepURI) (deps : List StepURI) : Bool :=
  if !(fsHasFile fs (tableDataFile uri)) || !(fsHasFile fs (metadata_path uri)) then
    false
  else
    let input_manifest := fsManifest fs (metadata_path uri)
    deps.all (fun dep => input_manifest.any (fun kv => kv.1 == metadata_path dep)) &&
    input_manifest.all (fun kv => fsHasFile fs kv.1 && (fsChecksum fs kv.1 == kv.2))

/-- Boolean set equality of two path lists. -/
def setEqStr (a b : List Str) : Bool :=
  a.all (fun x => b.contains x) && b.all (fun x => a.contains x)

/-- A dependency-metadata entry of an input manifest, recognised by its
`.meta.yaml` ending (script entries end in `.py` or `.sql`). -/
def endsWithMetaYaml (p : Str) : Bool :=
  leadsWith ((".meta.yaml".data).reverse) p.reverse

/-- A concrete state with a stale manifest: the registry declares no
dependencies, but the stored input manifest still lists a dependency
metadata file that exists and rehashes. -/
def staleFS : TableFS :=
  { files :=
      [(tableDataFile ⟨Scheme.table, ("x/2024-01-01".data)⟩, ("aa".data)),
       (metadata_path ⟨Scheme.table, ("x/2024-01-01".data)⟩, ("bb".data)),
       (("steps/tables/x/2024-01-01.py".data), ("cc".data)),
       (("data/snapshots/old/2024-01-01.meta.yaml".data), ("dd".data))]
    manifests :=
      [(metadata_path ⟨Scheme.table, ("x/2024-01-01".data)⟩,
        [(("steps/tables/x/2024-01-01.py".data), ("cc".data)),
         (("data/snapshots/old/2024-01-01.meta.yaml".data), ("dd".data))])] }

/-- C2 counterexample: `is_completed` accepts a table whose stored input
manifest still lists a dependency-metadata path although the registry
declares no dependencies, so the declared-dependency set does not equal
the manifest dependency-metadata set. -/
theorem claim_C2_counterexample :
    tables_is_completed staleFS ⟨Scheme.table, ("x/2024-01-01".data)⟩ [] = true ∧
    setEqStr (([] : List StepURI).map metadata_path)
      (((fsManifest staleFS (metadata_path ⟨Scheme.table, ("x/2024-01-01".data)⟩)).map
          Prod.fst).filter endsWithMetaYaml) = false := by
  refine ⟨by decide, by decide⟩

/-- C2 (amended): `is_completed` returns true exactly when output and
metadata files exist, every DECLARED dependency has its metadata path
present in the stored input manifest (containment, not set equality:
stale extra manifest entries do not invalidate the table as long as their
paths still exist and rehash), and every manifest entry still exists and
rehashes to its recorded checksum. -/
theorem claim_C2_amended (fs : TableFS) (uri : StepURI) (deps : List StepURI) :
    tables_is_completed fs uri deps = true ↔
      (fsHasFile fs (tableDataFile uri) = true ∧
       fsHasFile fs (metadata_path uri) = true ∧
       (∀ dep ∈ deps,
         (fsManifest fs (metadata_path uri)).any
           (fun kv => kv.1 == metadata_path dep) = true) ∧
       (∀ kv ∈ fsManifest fs (metadata_path uri),
         fsHasFile fs kv.1 = true ∧ fsChecksum fs kv.1 = kv.2)) := by
  unfold tables_is_completed
  by_cases h₁ : fsHasFile fs (tableDataFile uri) = true
  · by_cases h₂ : fsHasFile fs (metadata_path uri) = true
    · simp [h₁, h₂, List.all_eq_true, beq_iff_eq]
    · simp [h₂]
  · simp [h₁]

/-! ## Table metadata generation (`_gen_metadata`, claim C9) -/

/-- Parent of a slash-separated path (Python `Path.parent`). -/
def parentPath (p : Str) : Str := joinSlash ((splitSlash p).dropLast)

/-- The file-system state consulted while generating table metadata:
existing paths with content checksums, executable bits, the column/type
schema inferred from each parquet file, and the descriptive fields stored
in each metadata file. -/
structure BuildFS where
  files : List (Str × Str)
  execBits : List Str
  schemas : List (Str × List (Str × Str))
  descs : List (Str × List (Str × Str))
deriving DecidableEq, Repr

/-- Path existence on a build state. -/
def bfsHasFile (fs : BuildFS) (p : Str) : Bool := fs.files.any (fun kv => kv.1 == p)

/-- `checksum_file` on a build state. -/
def bfsChecksum (fs : BuildFS) (p : Str) : Str :=
  ((fs.files.find? (fun kv => kv.1 == p)).map Prod.snd).getD []

/-- `_infer_schema`: column names and type strings of a parquet file. -/
def bfsSchema (fs : BuildFS) (p : Str) : List (Str × Str) :=
  ((fs.schemas.find? (fun kv => kv.1 == p)).map Prod.snd).getD []

/-- The descriptive fields `load_yaml` finds in a metadata file. -/
def bfsDesc (fs : BuildFS) (p : Str) : List (Str × Str) :=
  ((fs.descs.find? (fun kv => kv.1 == p)).map Prod.snd).getD []

/-- `_is_valid_script`: the file exists and is executable. -/
def is_valid_script (fs : BuildFS) (script : Str) : Bool :=
  bfsHasFile fs script && fs.execBits.contains script

/-- The candidate loop of `_get_executable`: try `.py` then `.sql` next to
each base, raising on a `.py` script without execute permission, and a
not-found error when every base is exhausted. -/
def findScript (fs : BuildFS) : List Str → Except Str Str
  | [] => Except.error ("Could not find script for step".data)
  | b :: bs =>
    let py := pathWithSuffix b (".py".data)
    let sql := pathWithSuffix b (".sql".data)
    if bfsHasFile fs py then
      if is_valid_script fs py then Except.ok py
      else Except.error ("Missing execute permissions".data)
    else if bfsHasFile fs sql then Except.ok sql
    else findScript fs bs

/-- `_get_executable` from `src/shelf/tables.py` (with its permission
check on): script candidates are the step path itself and its parent, so
one script may serve several sibling versions. -/
def get_executable (fs : BuildFS) (uri : StepURI) : Except Str Str :=
  let base := TABLE_SCRIPT_DIR ++ '/' :: uri.path
  findScript fs [base, parentPath base]

/-- `_generate_input_manifest`: the build script and every dependency
metadata file, each mapped to its checksum. -/
def generate_input_manifest (fs : BuildFS) (uri : StepURI) (deps : List StepURI) :
    Except Str (List (Str × Str)) :=
  match get_executable fs uri with
  | Except.error e => Except.error e
  | Except.ok ex =>
    Except.ok ((ex, bfsChecksum fs ex) ::
      deps.map (fun d => (metadata_path d, bfsChecksum fs (metadata_path d))))

/-- The metadata record `_gen_metadata` builds before writing. -/
structure TableRecord where
  uri : Str
  version : Nat
  checksum : Str
  input_manifest : List (Str × Str)
  descriptive : List (Str × Str)
  tschema : List (Str × Str)
deriving DecidableEq, Repr

/-- The five descriptive fields inherited from a single dependency, in
source order, each copied when present. -/
def inheritedFields (dm : List (Str × Str)) : List (Str × Str) :=
  [("name".data), ("source_name".data), ("source_url".data),
   ("date_accessed".data), ("access_notes".data)].filterMap
    (fun f => (dm.find? (fun kv => kv.1 == f)).map (fun kv => (f, kv.2)))

/-- Modelled from the spec: the table JSON schema file
`src/shelf/schemas/table-v1.schema.json` is absent from the source tree;
in this structured model the required fields (`uri`, `version`,
`checksum`, `input_manifest`, `schema`) always exist with the right
types, so validation always succeeds. -/
def tableSchemaValid (_r : TableRecord) : Bool := true

/-- The record `_gen_metadata` assembles before validating: identifiers,
the parquet checksum, the input manifest, the descriptive fields inherited
when there is exactly one dependency, and the inferred schema. -/
def built_record (fs : BuildFS) (uri : StepURI) (deps : List StepURI)
    (im : List (Str × Str)) : TableRecord :=
  { uri := uri.str
    version := 1
    checksum := bfsChecksum fs (tableDataFile uri)
    input_manifest := im
    descriptive :=
      match deps with
      | [d] => inheritedFields (bfsDesc fs (metadata_path d))
      | _ => []
    tschema := bfsSchema fs (tableDataFile uri) }

theorem built_record_tschema (fs : BuildFS) (uri : StepURI) (deps : List StepURI)
    (im : List (Str × Str)) :
    (built_record fs uri deps im).tschema = bfsSchema fs (tableDataFile uri) := rfl

/-- `_gen_metadata` from `src/shelf/tables.py`: build the record, inherit
descriptive fields from a single dependency, infer the schema, validate
against the table schema, then fail with a validation error when no
column name starts with `dim_` — the metadata file has not been written
at that point — and otherwise write the record at the metadata path. -/
def gen_metadata (fs : BuildFS) (uri : StepURI) (deps : List StepURI) :
    Except Str (Str × TableRecord) :=
  match generate_input_manifest fs uri deps with
  | Except.error e => Except.error e
  | Except.ok im =>
    let record := built_record fs uri deps im
    if tableSchemaValid record = false then
      Except.error ("table schema violation".data)
    else if !((record.tschema.map Prod.fst).any (fun c => leadsWith ("dim_".data) c)) then
      Except.error ("does not have any dimension columns prefixed with dim_".data)
    else
      Except.ok (metadata_path uri, record)

/-- C9: once the build script resolves, metadata generation errors exactly
when no inferred column name starts with `dim_`; in that case no record is
produced (the write happens only on the success path), and on success the
record is written at the metadata path of the table. -/
theorem claim_C9_gen_metadata (fs : BuildFS) (uri : StepURI) (deps : List StepURI)
    (s : Str) (hex : get_executable fs uri = Except.ok s) :
    ((∃ e, gen_metadata fs uri deps = Except.error e) ↔
      ((bfsSchema fs (tableDataFile uri)).map Prod.fst).any
        (fun c => leadsWith ("dim_".data) c) = false) ∧
    (∀ dest rec, gen_metadata fs uri deps = Except.ok (dest, rec) →
      dest = metadata_path uri ∧
      rec.tschema = bfsSchema fs (tableDataFile uri) ∧
      (rec.tschema.map Prod.fst).any (fun c => leadsWith ("dim_".data) c) = true) := by
  unfold gen_metadata generate_input_manifest
  rw [hex]
  simp only [tableSchemaValid, built_record_tschema]
  by_cases hdim :
      ((bfsSchema fs (tableDataFile uri)).map Prod.fst).any
        (fun c => leadsWith ("dim_".data) c) = true
  · rw [if_neg (by simp), if_neg (by simp [hdim])]
    refine ⟨⟨?_, ?_⟩, ?_⟩
    · rintro ⟨e, he⟩
      exact absurd he (by simp)
    · intro hfalse
      rw [hdim] at hfalse
      exact absurd hfalse (by simp)
    · intro dest rec hok
      have h1 : dest = metadata_path uri := by
        cases hok
        rfl
      have h2 : rec = built_record fs uri deps
          ((s, bfsChecksum fs s) ::
            deps.map (fun d => (metadata_path d, bfsChecksum fs (metadata_path d)))) := by
        cases hok
        rfl
      subst h1
      subst h2
      exact ⟨rfl, rfl, by rw [built_record_tschema, hdim]⟩
  · simp only [Bool.not_eq_true] at hdim
    rw [if_neg (by simp), if_pos (by simp [hdim])]
    refine ⟨⟨?_, ?_⟩, ?_⟩
    · intro _
      exact hdim
    · intro _
      exact ⟨_, rfl⟩
    · intro dest rec hok
      exact absurd hok (by simp)

/-- A concrete build state whose script resolves and whose parquet output
has a `dim_` column. -/
def dimFS : BuildFS :=
  { files :=
      [(("steps/tables/d/latest.py".data), ("11".data)),
       (("data/tables/d/latest.parquet".data), ("22".data))]
    execBits := [("steps/tables/d/latest.py".data)]
    schemas :=
      [(("data/tables/d/latest.parquet".data),
        [(("dim_col1".data), ("Int64".data)), (("col2".data), ("Int64".data))])]
    descs := [] }

/-- The same build state with a parquet schema lacking any `dim_` column. -/
def noDimFS : BuildFS :=
  { dimFS with
    schemas :=
      [(("data/tables/d/latest.parquet".data),
        [(("col1".data), ("Int64".data)), (("col2".data), ("Int64".data))])] }

/-- Witness for C9: with a `dim_` column metadata generation cannot error;
without one it errors. -/
theorem claim_C9_gen_metadata_witness :
    (¬ ∃ e, gen_metadata dimFS ⟨Scheme.table, ("d/latest".data)⟩ [] = Except.error e) ∧
    (∃ e, gen_metadata noDimFS ⟨Scheme.table, ("d/latest".data)⟩ [] = Except.error e) :=
  ⟨fun h => absurd
      (((claim_C9_gen_metadata dimFS ⟨Scheme.table, ("d/latest".data)⟩ []
          (("steps/tables/d/latest.py".data)) (by decide)).1).mp h)
      (by decide),
   ((claim_C9_gen_metadata noDimFS ⟨Scheme.table, ("d/latest".data)⟩ []
      (("steps/tables/d/latest.py".data)) (by decide)).1).mpr (by decide)⟩

/-! ## SQL template dependency names (`_generate_candidate_names`, claim C7) -/

/-- Python underscore-join of a list of parts. -/
def joinUnderscore : List Str → Str
  | [] => []
  | [p] => p
  | p :: q :: ps => p ++ '_' :: joinUnderscore (q :: ps)

/-- The i-th name yielded by the `_generate_candidate_names` generator of
`src/shelf/tables.py` for a dependency path given as its segments: index 0
is the penultimate segment, each further index extends the name one
segment leftward, and once the segments are exhausted the generator yields
the fully extended name forever.  The version-suffixed fallback the source
appends to its local `candidates` list is dead code: it is never
yielded. -/
def candidateName (parts : List Str) (i : Nat) : Str :=
  let core := parts.dropLast
  let k := min i (core.length - 1)
  joinUnderscore (core.drop (core.length - 1 - k))

/-- Modelled from the spec (and from the dead `candidates` list in the
source): the fallback name that claim C7 describes, the fully extended
name with the final segment appended after removing dashes. -/
def specFallbackName (parts : List Str) : Str :=
  joinUnderscore parts.dropLast ++ '_' :: (lastPart parts).filter (fun c => !(c == '-'))

/-- The set of names occurring at least twice (the Counter-based
`duplicates` set; repeats are compared as sets). -/
def dupNames (names : List Str) : List Str :=
  names.filter (fun n => 2 ≤ names.countP (fun m => m == n))

/-- Python dict assignment `mapping[name] = d`: replace the value in place
when the key exists, append the pair otherwise. -/
def dictInsert : List (Str × List Str) → Str → List Str → List (Str × List Str)
  | [], k, v => [(k, v)]
  | (k2, v2) :: rest, k, v =>
    if k2 == k then (k2, v) :: rest else (k2, v2) :: dictInsert rest k v

/-- The membership test `d not in duplicates` inside
`_simplify_dependency_names`: `d` is a dependency `Path` while
`duplicates` holds candidate NAME strings, and in Python a `Path` never
compares equal to a `str`, so `d in duplicates` is false for every
dependency and every duplicate set. -/
def pathMemNames (_d : List Str) (_names : List Str) : Bool := false

/-- One resolution pass of `_simplify_dependency_names`: for each frontier
entry whose dependency is "not in" the duplicate set — always, by
`pathMemNames` — assign its name in the mapping (colliding names
overwriting each other in insertion order). -/
def resolvePass (named : List ((List Str × Nat) × Str)) (dups : List Str)
    (mapping : List (Str × List Str)) : List (Str × List Str) :=
  named.foldl
    (fun m dn => if pathMemNames dn.1.1 dups then m else dictInsert m dn.2 dn.1.1)
    mapping

/-- The frontier entries the resolution pass keeps: those whose dependency
IS in the duplicate set — none, by `pathMemNames`. -/
def resolveRest (named : List ((List Str × Nat) × Str)) (dups : List Str) :
    List (List Str × Nat) :=
  (named.filter (fun dn => pathMemNames dn.1.1 dups)).map Prod.fst

/-- The `while duplicates:` loop of `_simplify_dependency_names`, faithful
to the source: the loop runs while the current duplicate set is nonempty,
advances the remaining iterators, recomputes the duplicate name set,
raises when it equals `last_duplicates` — which the source never
reassigns inside the loop, so it stays frozen at the set computed before
the loop — and then runs the resolution pass with its Path-versus-string
membership test.  The fuel only bounds the iteration count. -/
def simplifyLoop : Nat → List (List Str × Nat) → List Str → List Str →
    List (Str × List Str) → Except Str (List (Str × List Str))
  | 0, _, _, _, _ => Except.error ("fuel exhausted".data)
  | fuel + 1, frontier, dups, lastDups, mapping =>
    if dups.isEmpty then Except.ok mapping
    else
      let named := frontier.map
        (fun di => ((di.1, di.2 + 1), candidateName di.1 (di.2 + 1)))
      let dups2 := dupNames (named.map Prod.snd)
      if setEqStr dups2 lastDups then
        Except.error ("infinite loop resolving dependencies".data)
      else
        simplifyLoop fuel (resolveRest named dups2) dups2 lastDups
          (resolvePass named dups2 mapping)

/-- `_simplify_dependency_names` from `src/shelf/tables.py`: compute every
dependency's first candidate name and the duplicate set, run the
resolution pass — whose `d not in duplicates` tests the Path against name
strings and therefore resolves every dependency at once — and enter the
loop with `last_duplicates` frozen to the initial duplicate set. -/
def simplify_dependency_names (deps : List (List Str)) :
    Except Str (List (Str × List Str)) :=
  let named := deps.map (fun d => ((d, 0), candidateName d 0))
  let dups := dupNames (named.map Prod.snd)
  simplifyLoop ((deps.map List.length).foldl Nat.max 0 + 3)
    (resolveRest named dups) dups dups (resolvePass named dups [])

/-- C7: two dependencies differing only in their version segment collide
on their very first candidate name, yet the resolver returns a
single-entry mapping in which the later dependency has silently
overwritten the earlier one — it neither extends the names until unique
nor fails loudly.  The membership test `d not in duplicates` compares a
Path against name strings and never holds, so every dependency resolves
immediately, and both the stagnation error and the dashless-version
fallback of the claim (which would have produced the two distinct names
shown) are unreachable. -/
theorem claim_C7_simplify_names :
    candidateName [("a".data), ("b".data), ("2024-01-01.txt".data)] 0 = ("b".data) ∧
    candidateName [("a".data), ("b".data), ("2024-01-02.txt".data)] 0 = ("b".data) ∧
    simplify_dependency_names
        [[("a".data), ("b".data), ("2024-01-01.txt".data)],
         [("a".data), ("b".data), ("2024-01-02.txt".data)]] =
      Except.ok [(("b".data), [("a".data), ("b".data), ("2024-01-02.txt".data)])] ∧
    specFallbackName [("a".data), ("b".data), ("2024-01-01.txt".data)] =
      ("a_b_20240101.txt".data) ∧
    specFallbackName [("a".data), ("b".data), ("2024-01-02.txt".data)] =
      ("a_b_20240102.txt".data) := by
  refine ⟨by decide, by decide, by decide, by decide, by decide⟩

/-! ## Dirty pruning (`prune_completed`, claim C1) -/

/-- The DAG of `src/shelf/types.py`, an insertion-ordered mapping from
each step to its dependency list. -/
abbrev DagL := List (StepURI × List StepURI)

/-- Dictionary lookup on the DAG. -/
def lookupDag (dag : DagL) (s : StepURI) : Option (List StepURI) :=
  (dag.find? (fun kv => kv.1 == s)).map Prod.snd

/-- Steps not yet emitted whose dependencies have all been emitted, in
insertion order (one Kahn round of the graphlib topological sorter). -/
def topoReady (dag : DagL) (emitted : List StepURI) : List StepURI :=
  (dag.filter (fun kv =>
    !(emitted.contains kv.1) && kv.2.all (fun d => emitted.contains d))).map Prod.fst

/-- Batched Kahn sort with fuel: emit every ready step, recurse, and fail
(the graphlib cycle error) when nothing is ready while steps remain. -/
def topoGo (dag : DagL) : Nat → List StepURI → Option (List StepURI)
  | 0, emitted =>
    if dag.all (fun kv => emitted.contains kv.1) then some [] else none
  | n + 1, emitted =>
    let ready := topoReady dag emitted
    if ready.isEmpty then
      if dag.all (fun kv => emitted.contains kv.1) then some [] else none
    else
      (topoGo dag n (emitted ++ ready)).map (fun rest => ready ++ rest)

/-- `graphlib.TopologicalSorter(dag).static_order()`: dependencies before
dependents; `none` models the cycle error. -/
def topoOrder (dag : DagL) : Option (List StepURI) := topoGo dag dag.length []

/-- `prune_completed` from `src/shelf/steps.py`, verbatim including its
dirty rule: walking the DAG in topological order, a step is recorded
dirty when ALL of its dependencies are NOT dirty AND its own
`is_completed` test returns false, and the returned sub-DAG keeps the
dirty steps with edges restricted to them.  The up-to-date test is the
`completed` parameter. -/
def prune_completed (dag : DagL) (completed : StepURI → Bool) : Option DagL :=
  (topoOrder dag).map (fun order =>
    let dirty := order.foldl
      (fun acc step =>
        let deps := (lookupDag dag step).getD []
        acc ++ [(step,
          deps.all (fun dp =>
            !(((acc.find? (fun kv => kv.1 == dp)).map Prod.snd).getD false)) &&
          !(completed step))])
      []
    let keep := (dirty.filter (fun sd => sd.2)).map Prod.fst
    keep.map (fun step =>
      (step, ((lookupDag dag step).getD []).filter (fun d => keep.contains d))))

/-- The up-to-date test on which every step reports stale. -/
def allStale : StepURI → Bool := fun _ => false

/-- C1: on the two-step chain where `b` depends on `a` and both
up-to-date tests return false, the claim marks both steps dirty (each
fails its own test, and `b` additionally has the dirty dependency `a`),
but the source excludes `b` from the pruned sub-DAG: its dirty flag is
computed as "no dependency is dirty AND not completed", the negation of
the rule stated in its own comment. -/
theorem claim_C1_prune_completed :
    allStale ⟨Scheme.table, ("b/latest".data)⟩ = false ∧
    prune_completed
        [(⟨Scheme.snapshot, ("a/latest".data)⟩, []),
         (⟨Scheme.table, ("b/latest".data)⟩, [⟨Scheme.snapshot, ("a/latest".data)⟩])]
        allStale =
      some [(⟨Scheme.snapshot, ("a/latest".data)⟩, [])] := by
  refine ⟨by decide, by decide⟩

/-! ## Snapshot fetch and path traversal (claim C3) -/

/-- The two snapshot kinds. -/
inductive SnapType where
  | file
  | directory
deriving DecidableEq, Repr

/-- The fields of the `Snapshot` record from `src/shelf/snapshots.py` that
materialization uses: for a directory snapshot the manifest maps relative
paths to checksums; for a file snapshot the extension completes the data
path. -/
structure SnapshotRec where
  uri : StepURI
  snapshot_type : SnapType
  checksum : Str
  manifest : List (Str × Str)
  extension : Str
deriving DecidableEq, Repr

/-- `Snapshot.path`: the on-disk data location. -/
def SnapshotRec.path (s : SnapshotRec) : Str :=
  match s.snapshot_type with
  | SnapType.file => SNAPSHOT_DIR ++ '/' :: s.uri.path ++ s.extension
  | SnapType.directory => SNAPSHOT_DIR ++ '/' :: s.uri.path

/-- The destination paths `Snapshot.fetch` downloads to, read off its
loop: one `fetch_from_s3(checksum, self.path / file_name)` per manifest
entry for a directory snapshot, with no condition on `file_name`. -/
def fetchWrites (s : SnapshotRec) : List Str :=
  match s.snapshot_type with
  | SnapType.file => [s.path]
  | SnapType.directory => s.manifest.map (fun kv => s.path ++ '/' :: kv.1)

/-- Normalize a segment list: drop `.` and empty segments, let `..` pop
the previous segment (the effect of `Path.resolve` on relative
structure). -/
def normSegs (segs : List Str) : List Str :=
  segs.foldl (fun acc seg =>
    if seg == (".".data) || seg == ([] : Str) then acc
    else if seg == ("..".data) then acc.dropLast
    else acc ++ [seg]) []

/-- Segment-wise prefix test: the first list of segments is an initial
segment of the second. -/
def segsLeadWith : List Str → List Str → Bool
  | [], _ => true
  | a :: as, l =>
    match l with
    | b :: bs => a == b && segsLeadWith as bs
    | [] => false

/-- A destination stays inside a root when the normalized root segments
are a prefix of the normalized destination segments
(`Path.is_relative_to` after resolving). -/
def staysInside (root dest : Str) : Bool :=
  segsLeadWith (normSegs (splitSlash root)) (normSegs (splitSlash dest))

/-- The traversal guard of `Shelf.restore_directory` in
`src/shelf/__init__.py`: accept a manifest relpath only when the resolved
destination stays inside the dataset directory. -/
def restoreGuardAccepts (dataPath : Str) (rel : Str) : Bool :=
  staysInside dataPath (dataPath ++ '/' :: rel)

/-- A directory snapshot whose stored manifest contains a parent-escaping
relative path. -/
def evilSnap : SnapshotRec :=
  { uri := ⟨Scheme.snapshot, ("x/2024-01-01".data)⟩
    snapshot_type := SnapType.directory
    checksum := ("00".data)
    manifest := [(("../evil.txt".data), ("ee".data))]
    extension := [] }

/-- C3: `Snapshot.fetch` performs no rejection — its write list for the
escaping manifest entry lands outside the dataset root after
normalization — while the traversal guard of the older
`Shelf.restore_directory` rejects the same relpath. -/
theorem claim_C3_fetch_traversal :
    (fetchWrites evilSnap).any
      (fun p => !(staysInside evilSnap.path p)) = true ∧
    restoreGuardAccepts evilSnap.path (("../evil.txt").data) = false := by
  refine ⟨by decide, by decide⟩

/-! ## Regex selection (`prune_with_regex`, claim C4) -/

/-- The keys of the DAG mapping, in insertion order. -/
def keysOf (dag : DagL) : List StepURI := dag.map Prod.fst

/-- `step_to_upstream.get(step, [])`: the dependency list of a step. -/
def upstream (dag : DagL) (s : StepURI) : List StepURI :=
  (lookupDag dag s).getD []

/-- `step_to_downstream.get(step, [])`: the steps that list `s` among
their dependencies, in insertion order. -/
def downstream (dag : DagL) (s : StepURI) : List StepURI :=
  (dag.filter (fun kv => kv.2.contains s)).map Prod.fst

/-- What one pop of the worklist pushes: the dependencies, and the
dependents when the `descendents` flag is set. -/
def neighbors (dag : DagL) (desc : Bool) (s : StepURI) : List StepURI :=
  upstream dag s ++ (if desc then downstream dag s else [])

/-- Registry invariant 1: every dependency URI is itself a key. -/
def closedDag (dag : DagL) : Bool :=
  dag.all (fun kv => kv.2.all (fun d => (keysOf dag).contains d))

/-- The worklist loop of `prune_with_regex`: pop the LAST queue entry
(Python `list.pop`), skip it when already included, and otherwise include
it and push its neighbors.  The fuel argument is structural so the kernel
can evaluate the loop; `crawlFuel` below always suffices. -/
def crawl (dag : DagL) (desc : Bool) : Nat → List StepURI → List StepURI → List StepURI
  | 0, _, inc => inc
  | _ + 1, [], inc => inc
  | fuel + 1, q :: qs, inc =>
    let s := (q :: qs).getLast (by simp)
    let rest := (q :: qs).dropLast
    if s ∈ inc then crawl dag desc fuel rest inc
    else crawl dag desc fuel (rest ++ neighbors dag desc s) (s :: inc)

/-- Bound on how much one pop can push. -/
def pushBound (dag : DagL) : Nat :=
  (dag.map (fun kv => kv.2.length)).sum + dag.length

/-- The termination measure of the worklist: keys not yet included, scaled
past any possible queue growth, plus the queue length. -/
def crawlMeasure (dag : DagL) (queue inc : List StepURI) : Nat :=
  ((keysOf dag).filter (fun k => !(inc.contains k))).length * (pushBound dag + 1) +
    queue.length

/-- Fuel that strictly dominates the initial measure. -/
def crawlFuel (dag : DagL) (queue : List StepURI) : Nat :=
  (keysOf dag).length * (pushBound dag + 1) + queue.length + 1

/-- The nodes reachable from a seed set by repeatedly following
dependencies, and dependents when the flag is set: the closure the
worklist computes. -/
inductive Reachable (dag : DagL) (desc : Bool) (seeds : List StepURI) : StepURI → Prop
  | base {s} : s ∈ seeds → Reachable dag desc seeds s
  | step {s d} : Reachable dag desc seeds s → d ∈ neighbors dag desc s →
      Reachable dag desc seeds d

theorem Reachable.mono {dag : DagL} {desc : Bool} {s₁ s₂ : List StepURI}
    (hsub : ∀ x ∈ s₁, x ∈ s₂) {z : StepURI} (h : Reachable dag desc s₁ z) :
    Reachable dag desc s₂ z := by
  induction h with
  | base hbase => exact Reachable.base (hsub _ hbase)
  | step _ hnb ih => exact Reachable.step ih hnb

theorem Reachable.bind {dag : DagL} {desc : Bool} {s₁ s₂ : List StepURI}
    (hsub : ∀ x ∈ s₂, Reachable dag desc s₁ x) {z : StepURI}
    (h : Reachable dag desc s₂ z) : Reachable dag desc s₁ z := by
  induction h with
  | base hbase => exact hsub _ hbase
  | step _ hnb ih => exact Reachable.step ih hnb

theorem length_filter_le_of_imp {α} {p q : α → Bool}
    (himp : ∀ x, q x = true → p x = true) (l : List α) :
    (l.filter q).length ≤ (l.filter p).length := by
  induction l with
  | nil => simp
  | cons x xs ih =>
    by_cases hq : q x = true
    · rw [List.filter_cons_of_pos hq, List.filter_cons_of_pos (himp x hq)]
      simpa using ih
    · rw [List.filter_cons_of_neg (by simpa using hq)]
      by_cases hp : p x = true
      · rw [List.filter_cons_of_pos hp]
        exact Nat.le_succ_of_le ih
      · rw [List.filter_cons_of_neg (by simpa using hp)]
        exact ih

theorem length_filter_lt_of_mem {α} {p q : α → Bool} {a : α} {l : List α}
    (ha : a ∈ l) (hpa : p a = true) (hqa : q a = false)
    (himp : ∀ x, q x = true → p x = true) :
    (l.filter q).length < (l.filter p).length := by
  induction l with
  | nil => simp at ha
  | cons x xs ih =>
    rcases List.mem_cons.mp ha with hx | hx
    · subst hx
      have e1 : List.filter q (a :: xs) = List.filter q xs :=
        List.filter_cons_of_neg (by simp [hqa])
      have e2 : List.filter p (a :: xs) = a :: List.filter p xs :=
        List.filter_cons_of_pos hpa
      rw [e1, e2]
      exact Nat.lt_succ_of_le (length_filter_le_of_imp himp xs)
    · by_cases hq : q x = true
      · rw [List.filter_cons_of_pos hq, List.filter_cons_of_pos (himp x hq)]
        simpa using ih hx
      · rw [List.filter_cons_of_neg (by simpa using hq)]
        by_cases hp : p x = true
        · rw [List.filter_cons_of_pos hp]
          exact Nat.lt_succ_of_lt (ih hx)
        · rw [List.filter_cons_of_neg (by simpa using hp)]
          exact ih hx

theorem neighbors_length_le (dag : DagL) (desc : Bool) (s : StepURI) :
    (neighbors dag desc s).length ≤ pushBound dag := by
  unfold neighbors pushBound
  have h₁ : (upstream dag s).length ≤ (dag.map (fun kv => kv.2.length)).sum := by
    unfold upstream lookupDag
    cases hf : dag.find? (fun kv => kv.1 == s) with
    | none => simp
    | some kv =>
      have hmem : kv ∈ dag := List.mem_of_find?_eq_some hf
      have hlen : kv.2.length ∈ dag.map (fun kv => kv.2.length) :=
        List.mem_map_of_mem _ hmem
      simpa using List.single_le_sum (fun x _ => Nat.zero_le x) _ hlen
  have h₂ : (if desc then downstream dag s else []).length ≤ dag.length := by
    split
    · unfold downstream
      rw [List.length_map]
      exact List.length_filter_le _ _
    · simp
  rw [List.length_append]
  omega

theorem mem_keys_of_neighbor (dag : DagL) (desc : Bool) (s : StepURI)
    (hcl : closedDag dag = true) :
    ∀ y ∈ neighbors dag desc s, y ∈ keysOf dag := by
  intro y hy
  unfold neighbors at hy
  rcases List.mem_append.mp hy with hy | hy
  · unfold upstream lookupDag at hy
    cases hf : dag.find? (fun kv => kv.1 == s) with
    | none =>
      rw [hf] at hy
      simp at hy
    | some kv =>
      rw [hf] at hy
      simp only [Option.map_some', Option.getD_some] at hy
      have hmem : kv ∈ dag := List.mem_of_find?_eq_some hf
      unfold closedDag at hcl
      have hkv := (List.all_eq_true.mp hcl) kv hmem
      have hd := (List.all_eq_true.mp hkv) y hy
      simpa using hd
  · split at hy
    · unfold downstream at hy
      rcases List.mem_map.mp hy with ⟨kv, hkvmem, hkveq⟩
      exact hkveq ▸ List.mem_map_of_mem Prod.fst (List.mem_of_mem_filter hkvmem)
    · simp at hy

/-- The worklist computes exactly the closure of its queue and included
set under the neighbor relation, given enough fuel, a queue of keys, and
an included set already processed relative to the queue. -/
theorem crawl_mem (dag : DagL) (desc : Bool) (hcl : closedDag dag = true) :
    ∀ fuel queue inc,
      (∀ x ∈ queue, x ∈ keysOf dag) →
      (∀ x ∈ inc, ∀ y ∈ neighbors dag desc x, y ∈ inc ∨ y ∈ queue) →
      crawlMeasure dag queue inc < fuel →
      ∀ z, z ∈ crawl dag desc fuel queue inc ↔
        Reachable dag desc (queue ++ inc) z := by
  intro fuel
  induction fuel with
  | zero =>
    intro queue inc _ _ hm
    exact absurd hm (by omega)
  | succ fuel ih =>
    intro queue inc hq hproc hm z
    cases queue with
    | nil =>
      rw [show crawl dag desc (fuel + 1) [] inc = inc from rfl]
      constructor
      · intro hz
        exact Reachable.base (by simpa using hz)
      · intro hz
        induction hz with
        | base hb => simpa using hb
        | step _ hnb ihs =>
          rcases hproc _ ihs _ hnb with h | h
          · exact h
          · simp at h
    | cons q qs =>
      have hqsplit : (q :: qs).dropLast ++ [(q :: qs).getLast (by simp)] = q :: qs :=
        List.dropLast_append_getLast (by simp)
      have hsmem : (q :: qs).getLast (by simp) ∈ q :: qs := List.getLast_mem _
      have hskey : (q :: qs).getLast (by simp) ∈ keysOf dag := hq _ hsmem
      have hrest_sub : ∀ x ∈ (q :: qs).dropLast, x ∈ q :: qs :=
        fun x hx => List.dropLast_subset _ hx
      have hcrawl : crawl dag desc (fuel + 1) (q :: qs) inc =
          if (q :: qs).getLast (by simp) ∈ inc then
            crawl dag desc fuel ((q :: qs).dropLast) inc
          else
            crawl dag desc fuel
              ((q :: qs).dropLast ++ neighbors dag desc ((q :: qs).getLast (by simp)))
              ((q :: qs).getLast (by simp) :: inc) := rfl
      have hlen_rest : ((q :: qs).dropLast).length + 1 = (q :: qs).length := by
        conv_rhs => rw [← hqsplit]
        simp
      by_cases hsin : (q :: qs).getLast (by simp) ∈ inc
      · rw [hcrawl, if_pos hsin]
        rw [ih ((q :: qs).dropLast) inc
          (fun x hx => hq x (hrest_sub x hx))
          (fun x hx y hy => by
            rcases hproc x hx y hy with h | h
            · exact Or.inl h
            · rw [← hqsplit] at h
              rcases List.mem_append.mp h with h | h
              · exact Or.inr h
              · simp only [List.mem_singleton] at h
                exact Or.inl (h ▸ hsin))
          (by
            unfold crawlMeasure at hm ⊢
            omega)
          z]
        constructor
        · intro h
          refine h.mono (fun x hx => ?_)
          rcases List.mem_append.mp hx with h | h
          · exact List.mem_append.mpr (Or.inl (hrest_sub x h))
          · exact List.mem_append.mpr (Or.inr h)
        · intro h
          refine h.bind (fun x hx => ?_)
          rcases List.mem_append.mp hx with h | h
          · rw [← hqsplit] at h
            rcases List.mem_append.mp h with h | h
            · exact Reachable.base (List.mem_append.mpr (Or.inl h))
            · simp only [List.mem_singleton] at h
              exact Reachable.base (List.mem_append.mpr (Or.inr (h ▸ hsin)))
          · exact Reachable.base (List.mem_append.mpr (Or.inr h))
      · rw [hcrawl, if_neg hsin]
        have hmiss : ((keysOf dag).filter
              (fun k => !(((q :: qs).getLast (by simp) :: inc).contains k))).length <
            ((keysOf dag).filter (fun k => !(inc.contains k))).length := by
          refine length_filter_lt_of_mem hskey ?_ ?_ ?_
          · simpa using hsin
          · simp
          · intro x hx
            simp only [Bool.not_eq_true'] at hx ⊢
            simp only [List.contains_cons, Bool.or_eq_false_iff] at hx
            exact hx.2
        have hnb_le := neighbors_length_le dag desc ((q :: qs).getLast (by simp))
        have hmeas : crawlMeasure dag
            ((q :: qs).dropLast ++ neighbors dag desc ((q :: qs).getLast (by simp)))
            ((q :: qs).getLast (by simp) :: inc) < fuel := by
          unfold crawlMeasure at hm ⊢
          rw [List.length_append]
          have hpos : 1 ≤ ((keysOf dag).filter (fun k => !(inc.contains k))).length := by
            omega
          have hmul : ((keysOf dag).filter
                (fun k => !(((q :: qs).getLast (by simp) :: inc).contains k))).length *
                  (pushBound dag + 1) ≤
              (((keysOf dag).filter (fun k => !(inc.contains k))).length - 1) *
                (pushBound dag + 1) :=
            Nat.mul_le_mul_right _ (by omega)
          have hsplitmul : ((keysOf dag).filter (fun k => !(inc.contains k))).length *
                (pushBound dag + 1) =
              (((keysOf dag).filter (fun k => !(inc.contains k))).length - 1) *
                (pushBound dag + 1) + (pushBound dag + 1) := by
            conv_lhs => rw [show ((keysOf dag).filter (fun k => !(inc.contains k))).length =
              (((keysOf dag).filter (fun k => !(inc.contains k))).length - 1) + 1 by omega]
            rw [Nat.succ_mul]
          omega
        rw [ih _ _
          (fun x hx => by
            rcases List.mem_append.mp hx with h | h
            · exact hq x (hrest_sub x h)
            · exact mem_keys_of_neighbor dag desc _ hcl x h)
          (fun x hx y hy => by
            rcases List.mem_cons.mp hx with h | h
            · exact Or.inr (List.mem_append.mpr (Or.inr (h ▸ hy)))
            · rcases hproc x h y hy with h2 | h2
              · exact Or.inl (List.mem_cons.mpr (Or.inr h2))
              · rw [← hqsplit] at h2
                rcases List.mem_append.mp h2 with h2 | h2
                · exact Or.inr (List.mem_append.mpr (Or.inl h2))
                · simp only [List.mem_singleton] at h2
                  exact Or.inl (List.mem_cons.mpr (Or.inl h2)))
          hmeas z]
        constructor
        · intro h
          refine h.bind (fun x hx => ?_)
          rcases List.mem_append.mp hx with h2 | h2
          · rcases List.mem_append.mp h2 with h3 | h3
            · exact Reachable.base (List.mem_append.mpr (Or.inl (hrest_sub x h3)))
            · exact Reachable.step
                (Reachable.base (List.mem_append.mpr (Or.inl hsmem))) h3
          · rcases List.mem_cons.mp h2 with h3 | h3
            · exact Reachable.base (h3 ▸ List.mem_append.mpr (Or.inl hsmem))
            · exact Reachable.base (List.mem_append.mpr (Or.inr h3))
        · intro h
          refine h.mono (fun x hx => ?_)
          rcases List.mem_append.mp hx with h2 | h2
          · rw [← hqsplit] at h2
            rcases List.mem_append.mp h2 with h3 | h3
            · exact List.mem_append.mpr (Or.inl (List.mem_append.mpr (Or.inl h3)))
            · simp only [List.mem_singleton] at h3
              exact List.mem_append.mpr (Or.inr (List.mem_cons.mpr (Or.inl h3)))
          · exact List.mem_append.mpr (Or.inr (List.mem_cons.mpr (Or.inr h2)))

/-- The included node set of `prune_with_regex`: seed the worklist with
the keys whose URI matches (the regex test `re.search(regex, str(step))`
is abstracted into the match predicate) and crawl. -/
def selectedSteps (dag : DagL) (matchesRe : StepURI → Bool) (descendents : Bool) :
    List StepURI :=
  crawl dag descendents (crawlFuel dag ((keysOf dag).filter matchesRe))
    ((keysOf dag).filter matchesRe) []

/-- `prune_with_regex` from `src/shelf/steps.py`: restrict the DAG to the
crawled include set, keeping only edges with both endpoints included. -/
def prune_with_regex (dag : DagL) (matchesRe : StepURI → Bool)
    (descendents : Bool) : DagL :=
  let inc := selectedSteps dag matchesRe descendents
  inc.map (fun step =>
    (step, ((lookupDag dag step).getD []).filter (fun d => inc.contains d)))

theorem selectedSteps_mem (dag : DagL) (matchesRe : StepURI → Bool)
    (desc : Bool) (hcl : closedDag dag = true) (z : StepURI) :
    z ∈ selectedSteps dag matchesRe desc ↔
      Reachable dag desc ((keysOf dag).filter matchesRe) z := by
  unfold selectedSteps
  have h := crawl_mem dag desc hcl (crawlFuel dag ((keysOf dag).filter matchesRe))
    ((keysOf dag).filter matchesRe) []
    (fun x hx => List.mem_of_mem_filter hx)
    (fun x hx => by simp at hx)
    (by
      unfold crawlMeasure crawlFuel
      have h1 : ((keysOf dag).filter (fun k => !(List.contains [] k))).length =
          (keysOf dag).length := by
        simp
      rw [h1]
      omega)
    z
  simpa using h

/-- C4 (amended): `prune_with_regex` returns the restriction of the DAG to
the closure of the regex-matching nodes under repeatedly adding the
dependencies AND the dependents of every included node (so the result can
also contain nodes that are neither ancestors nor descendants of any
matching node, reached through shared children); edges keep only included
endpoints. -/
theorem claim_C4_amended (dag : DagL) (matchesRe : StepURI → Bool)
    (hcl : closedDag dag = true) :
    (∀ z, z ∈ (prune_with_regex dag matchesRe true).map Prod.fst ↔
      Reachable dag true ((keysOf dag).filter matchesRe) z) ∧
    (∀ s ds, (s, ds) ∈ prune_with_regex dag matchesRe true →
      ∀ d, d ∈ ds ↔ d ∈ upstream dag s ∧
        Reachable dag true ((keysOf dag).filter matchesRe) d) := by
  have hkeys : (prune_with_regex dag matchesRe true).map Prod.fst =
      selectedSteps dag matchesRe true := by
    unfold prune_with_regex
    simp [Function.comp_def]
  constructor
  · intro z
    rw [hkeys]
    exact selectedSteps_mem dag matchesRe true hcl z
  · intro s ds hmem d
    unfold prune_with_regex at hmem
    simp only [List.mem_map] at hmem
    obtain ⟨step, hstep, heq⟩ := hmem
    have hs : step = s := congrArg Prod.fst heq
    subst hs
    have hds : ds = ((lookupDag dag step).getD []).filter
        (fun x => (selectedSteps dag matchesRe true).contains x) :=
      (congrArg Prod.snd heq).symm
    subst hds
    rw [List.mem_filter]
    unfold upstream
    constructor
    · rintro ⟨h1, h2⟩
      refine ⟨h1, ?_⟩
      rw [← selectedSteps_mem dag matchesRe true hcl d]
      simpa using h2
    · rintro ⟨h1, h2⟩
      refine ⟨h1, ?_⟩
      rw [← selectedSteps_mem dag matchesRe true hcl d] at h2
      simpa using h2

/-- Modelled from the spec words for claim C4: bounded fixpoint expansion
of a node set along a successor function (transitive reachability). -/
def expandFix (next : StepURI → List StepURI) : Nat → List StepURI → List StepURI
  | 0, acc => acc
  | n + 1, acc =>
    let add := (acc.foldl (fun l s => l ++ next s) []).filter
      (fun x => !(acc.contains x))
    if add.isEmpty then acc else expandFix next n (acc ++ add)

/-- Modelled from the spec words for claim C4: the selection the claim
describes — the union of the forward-reachable set (descendants) and the
backward-reachable set (ancestors) of the matching nodes, with the DAG
restricted to that set and edges keeping both endpoints inside it. -/
def specSelection (dag : DagL) (matchesRe : StepURI → Bool) : DagL :=
  let seeds := (keysOf dag).filter matchesRe
  let descs := expandFix (fun s => downstream dag s) ((keysOf dag).length + 1) seeds
  let ancs := expandFix (fun s => upstream dag s) ((keysOf dag).length + 1) seeds
  let uset := descs ++ ancs
  (dag.filter (fun kv => uset.contains kv.1)).map
    (fun kv => (kv.1, kv.2.filter (fun x => uset.contains x)))

/-- A DAG where `m` and `s` share the dependency `d` but are unrelated to
each other. -/
def cousinDag : DagL :=
  [(⟨Scheme.table, ("m/latest".data)⟩, [⟨Scheme.snapshot, ("d/latest".data)⟩]),
   (⟨Scheme.table, ("s/latest".data)⟩, [⟨Scheme.snapshot, ("d/latest".data)⟩]),
   (⟨Scheme.snapshot, ("d/latest".data)⟩, [])]

/-- The match predicate selecting exactly `table://m/latest`. -/
def matchM : StepURI → Bool := fun u => u == ⟨Scheme.table, ("m/latest".data)⟩

/-- C4 counterexample: on `cousinDag` with only `m` matching, the source
includes `s` — reached from `m` through the shared child `d` — although
`s` is neither an ancestor nor a descendant of `m`, so the result is NOT
the restriction to descendants ∪ ancestors. -/
theorem claim_C4_counterexample :
    closedDag cousinDag = true ∧
    (prune_with_regex cousinDag matchM true).any
      (fun kv => kv.1 == (⟨Scheme.table, ("s/latest".data)⟩ : StepURI)) = true ∧
    (specSelection cousinDag matchM).any
      (fun kv => kv.1 == (⟨Scheme.table, ("s/latest".data)⟩ : StepURI)) = false := by
  refine ⟨by decide, by decide, by decide⟩

/-- Witness for C4: the amended characterization applied to `cousinDag`
shows the cousin node `s` really is in the computed closure. -/
theorem claim_C4_amended_witness :
    Reachable cousinDag true ((keysOf cousinDag).filter matchM)
      ⟨Scheme.table, ("s/latest".data)⟩ :=
  ((claim_C4_amended cousinDag matchM (by decide)).1
    ⟨Scheme.table, ("s/latest".data)⟩).mp (by decide)
